import Mathlib

/-!
ChittyChain — verification of the ledger core against its specification.

The repository's HTTP routes (`src/server/routes/*.ts`), auth middleware and
database schema are present; the blockchain core itself (`server/blockchain/`,
referenced from the routes through `BlockchainService` / `EvidenceService`) is
not in the tree, so those operations are modelled from the specification's
words and marked as such in their doc comments.  Strings are modelled as lists
of characters (`Str`); machine arithmetic of the TypeScript source is modelled
with explicit two's-complement wrapping on `Int`.
-/

namespace ChittyChain


/-- JavaScript strings are modelled as lists of characters. -/

abbrev Str := List Char

/-- The six hexadecimal digits of `n` (most significant first); total for
`n < 16^6`, which covers every Unicode code point. -/

def hex6 (n : Nat) : Str :=
  [Nat.digitChar (n / 16 ^ 5 % 16), Nat.digitChar (n / 16 ^ 4 % 16),
   Nat.digitChar (n / 16 ^ 3 % 16), Nat.digitChar (n / 16 ^ 2 % 16),
   Nat.digitChar (n / 16 % 16), Nat.digitChar (n % 16)]

/-- Modelled from the spec: §4.1 `hash(bytes) -> fixed digest` via a
collision-resistant 256-bit function (SHA-256 in the surrounding code); the
implementing module `server/blockchain/` is absent from the tree, so the
digest is idealized as an injective hexadecimal encoding of the input. -/

def hash (s : Str) : Str := s.flatMap (fun c => hex6 c.toNat)

/-- Which side of the current node a merkle-proof sibling sits on. -/

inductive Side where
  | left
  | right
deriving DecidableEq, Repr

/-- Modelled from the spec: §4.1 siblings combine as `hash(left‖right)`. -/

def combine (l r : Str) : Str := hash (l ++ r)

/-- Modelled from the spec: §4.1 one level of the binary merkle tree; an odd
trailing leaf is duplicated before combining. -/

def pairUp : List Str → List Str
  | [] => []
  | [x] => [combine x x]
  | x :: y :: rest => combine x y :: pairUp rest

/-- Modelled from the spec: §4.1 `merkleRoot(sequence of digest) -> digest`:
binary tree over leaf hashes, recursing to one root. -/

def merkleRoot (l : List Str) : Str :=
  match l with
  | [] => hash []
  | [x] => x
  | x :: y :: rest => merkleRoot (pairUp (x :: y :: rest))
termination_by l.length
decreasing_by
  have hlen : ∀ (n : Nat) (l : List Str), l.length ≤ n →
      (pairUp l).length = (l.length + 1) / 2 := by
    intro n
    induction n with
    | zero =>
      intro l hl
      cases l with
      | nil => rfl
      | cons x xs => simp at hl
    | succ n ih =>
      intro l hl
      cases l with
      | nil => rfl
      | cons x xs =>
        cases xs with
        | nil => simp [pairUp]
        | cons y rest =>
          have hr := ih rest (by simp only [List.length_cons] at hl; omega)
          simp only [pairUp, List.length_cons, hr]
          omega
  simp only [hlen _ _ (Nat.le_refl _), List.length_cons]
  omega

/-- Modelled from the spec: §4.1/§4.5 `merkleProof(sequence, index) -> ordered
list of (siblingDigest, side)`; the sibling of an odd trailing leaf is its own
duplicate. -/

def merkleProofAux (l : List Str) (i : Nat) : List (Str × Side) :=
  if _ : l.length ≤ 1 then []
  else
    let step : Str × Side :=
      if i % 2 = 0 then
        (if i + 1 < l.length then (l.getD (i + 1) [], Side.right)
         else (l.getD i [], Side.right))
      else (l.getD (i - 1) [], Side.left)
    step :: merkleProofAux (pairUp l) (i / 2)
termination_by l.length
decreasing_by
  have hlen : ∀ (n : Nat) (l : List Str), l.length ≤ n →
      (pairUp l).length = (l.length + 1) / 2 := by
    intro n
    induction n with
    | zero =>
      intro l hl
      cases l with
      | nil => rfl
      | cons x xs => simp at hl
    | succ n ih =>
      intro l hl
      cases l with
      | nil => rfl
      | cons x xs =>
        cases xs with
        | nil => simp [pairUp]
        | cons y rest =>
          have hr := ih rest (by simp only [List.length_cons] at hl; omega)
          simp only [pairUp, List.length_cons, hr]
          omega
  simp only [hlen _ _ (Nat.le_refl _)]
  omega

/-- One step of root reconstruction: combine the running digest with the
sibling on the recorded side. -/

def verifyStep (cur : Str) : Str × Side → Str
  | (sib, Side.right) => combine cur sib
  | (sib, Side.left) => combine sib cur

/-- Modelled from the spec: §4.1 `verifyProof(leaf, proof, root) -> bool`
reconstructs the root from the path without the full set. -/

def verifyProof (leaf : Str) (proof : List (Str × Side)) (root : Str) : Bool :=
  proof.foldl verifyStep leaf == root

/-- Separator used when serializing fields into a hash input (the spec's `‖`). -/

def sep : Str := ['|']

/-- Decimal rendering of a natural number. -/

def natStr (n : Nat) : Str := (Nat.repr n).data

/-- Rendering of a rational (numerator sign, numerator, denominator). -/

def ratStr (q : ℚ) : Str :=
  (if q.num < 0 then ['-'] else []) ++ natStr q.num.natAbs ++ ['/'] ++ natStr q.den

/-- Modelled from the spec: §3 Transaction {type, payload, submitterIdentity,
createdAt, contentHash = hash(type‖payload‖submitterIdentity‖createdAt)}.
The compliance-check results are carried on the transaction because the spec
leaves the concrete predicate set open (§9). -/

structure Transaction where
  typ : Str
  payload : Str
  submitter : Str
  createdAt : Str
  complianceChecks : List Bool
deriving DecidableEq, Repr

def Transaction.contentHash (tx : Transaction) : Str :=
  hash (tx.typ ++ sep ++ tx.payload ++ sep ++ tx.submitter ++ sep ++ tx.createdAt)

/-- Modelled from the spec: §3 the five transaction kinds. -/

def TX_TYPES : List Str :=
  [("EvidenceSubmit").data, ("EvidenceValidate").data, ("CaseCreate").data,
   ("CaseUpdate").data, ("ArtifactBind").data]

/-- Modelled from the spec: §3 Block {height, previousHash, merkleRoot,
transactions, auditScore, nonce, timestamp, blockHash}. -/

structure Block where
  height : Nat
  previousHash : Str
  merkleRoot : Str
  transactions : List Transaction
  auditScore : ℚ
  nonce : Nat
  timestamp : Nat
  blockHash : Str
deriving DecidableEq, Repr

/-- Modelled from the spec: §3
blockHash = hash(height‖previousHash‖merkleRoot‖auditScore‖nonce‖timestamp). -/

def computeBlockHash (b : Block) : Str :=
  hash (natStr b.height ++ sep ++ b.previousHash ++ sep ++ b.merkleRoot ++ sep ++
    ratStr b.auditScore ++ sep ++ natStr b.nonce ++ sep ++ natStr b.timestamp)

/-- Modelled from the spec: §3 genesis.previousHash = a well-known zero
constant (a 64-character zero digest). -/

def GENESIS_PREVIOUS_HASH : Str := List.replicate 64 '0'

/-- Modelled from the spec: §3/§4.5 the genesis block at height 0. -/

def genesisBlock : Block :=
  let b0 : Block :=
    { height := 0
      previousHash := GENESIS_PREVIOUS_HASH
      merkleRoot := merkleRoot []
      transactions := []
      auditScore := 100
      nonce := 0
      timestamp := 0
      blockHash := [] }
  { b0 with blockHash := computeBlockHash b0 }

/-- Modelled from the spec: the single authoritative ledger instance plus the
transaction pool it owns (§3 Ownership, §4.3–§4.5); `nextNonce` is the
assembler's block-scoped monotonically increasing counter (§4.4). -/

structure ChainState where
  chain : List Block
  pool : List Transaction
  nextNonce : Nat
deriving DecidableEq, Repr

def initialState : ChainState :=
  { chain := [genesisBlock], pool := [], nextNonce := 1 }

/-- Last block of a chain (the current head); genesis for an empty chain. -/

def lastBlock : List Block → Block
  | [] => genesisBlock
  | [b] => b
  | _ :: b :: rest => lastBlock (b :: rest)

def ChainState.head (st : ChainState) : Block := lastBlock st.chain

inductive SubmitResult where
  | accepted
  | duplicate
  | rejected
  | poolFull
deriving DecidableEq, Repr

/-- Modelled from the spec: §5 the configured pool capacity behind `PoolFull`
backpressure. -/

def POOL_CAPACITY : Nat := 10000

/-- True when a content hash already exists in the pool or any committed
block. -/

def hashKnown (st : ChainState) (h : Str) : Bool :=
  st.pool.any (fun tx => tx.contentHash == h) ||
    st.chain.any (fun b => b.transactions.any (fun tx => tx.contentHash == h))

/-- Modelled from the spec: §4.3 `submit(transaction) -> accepted|duplicate|
rejected`: the pool validates shape, treats an already-known contentHash as a
replay-safe no-op (`duplicate`, never an error), and §5 fails with `PoolFull`
over capacity. -/

def submitTx (st : ChainState) (tx : Transaction) : SubmitResult × ChainState :=
  if ¬ (tx.typ ∈ TX_TYPES) then (.rejected, st)
  else if hashKnown st tx.contentHash then (.duplicate, st)
  else if POOL_CAPACITY ≤ st.pool.length then (.poolFull, st)
  else (.accepted, { st with pool := st.pool ++ [tx] })

/-- All compliance-check outcomes of a batch, in order. -/

def batchChecks (batch : List Transaction) : List Bool :=
  (batch.map Transaction.complianceChecks).flatten

/-- Modelled from the spec: §4.4 `auditScore = 100 * passingChecks /
totalChecks`. -/

def auditScore (batch : List Transaction) : ℚ :=
  100 * ((batchChecks batch).count true : ℚ) / ((batchChecks batch).length : ℚ)

/-- Modelled from the spec: §4.4 the Proof-of-Audit acceptance threshold. -/

def AUDIT_THRESHOLD : ℚ := 95

/-- Modelled from the spec: §4.4 on commit — merkleRoot over the batch,
previousHash = current head's blockHash, height = head height + 1, then
blockHash. -/

def mkBlock (prev : Block) (batch : List Transaction) (nonce timestamp : Nat) :
    Block :=
  let b0 : Block :=
    { height := prev.height + 1
      previousHash := prev.blockHash
      merkleRoot := merkleRoot (batch.map Transaction.contentHash)
      transactions := batch
      auditScore := auditScore batch
      nonce := nonce
      timestamp := timestamp
      blockHash := [] }
  { b0 with blockHash := computeBlockHash b0 }

inductive AssembleResult where
  | idle
  | committed (b : Block)
  | consensusRejected
deriving DecidableEq, Repr

/-- Modelled from the spec: §4.4 one serialized assembly cycle: drain up to
`batchSize` transactions, score them, commit only if auditScore ≥ 95,
otherwise re-queue every drained transaction at the front of the pool in its
original order; no partial block is persisted. -/

def assembleBlock (st : ChainState) (batchSize timestamp : Nat) :
    AssembleResult × ChainState :=
  let batch := st.pool.take batchSize
  let rest := st.pool.drop batchSize
  if batch.isEmpty then (.idle, st)
  else if AUDIT_THRESHOLD ≤ auditScore batch then
    let b := mkBlock st.head batch st.nextNonce timestamp
    (.committed b,
      { chain := st.chain ++ [b], pool := rest, nextNonce := st.nextNonce + 1 })
  else
    (.consensusRejected, { st with pool := batch ++ rest })

inductive AppendResult where
  | ok
  | forkRejected
deriving DecidableEq, Repr

/-- Modelled from the spec: §4.5 `append(block) -> ok | RejectedFork` — rejects
if previousHash ≠ head.blockHash or height ≠ head.height + 1; on rejection the
ledger is unchanged. -/

def appendBlock (st : ChainState) (b : Block) : AppendResult × ChainState :=
  if b.previousHash = st.head.blockHash ∧ b.height = st.head.height + 1 then
    (.ok, { st with chain := st.chain ++ [b] })
  else (.forkRejected, st)

/-- One link-and-hash check of the chain walk: stored previousHash, expected
height, recomputed blockHash. -/

def blockLinkOk (prevHash : Str) (expHeight : Nat) (b : Block) : Bool :=
  b.previousHash == prevHash && b.height == expHeight &&
    b.blockHash == computeBlockHash b

/-- Modelled from the spec: §4.5 walk from genesis recomputing every hash and
link, returning the height of the first mismatch. -/

def validateFrom : Str → Nat → List Block → Option Nat
  | _, _, [] => none
  | ph, h, b :: rest =>
    if blockLinkOk ph h b then validateFrom b.blockHash (h + 1) rest else some h

/-- Modelled from the spec: §4.5 `validateChain() -> {valid,
firstInvalidHeight?}`. -/

def validateChain (st : ChainState) : Bool × Option Nat :=
  match validateFrom GENESIS_PREVIOUS_HASH 0 st.chain with
  | none => (true, none)
  | some h => (false, some h)

/-- The ledger states reachable through the exposed operations: the initial
state, pool submission, and an assembly cycle. -/

inductive Reachable : ChainState → Prop where
  | init : Reachable initialState
  | submit {st : ChainState} (tx : Transaction) (h : Reachable st) :
      Reachable (submitTx st tx).2
  | assemble {st : ChainState} (batchSize timestamp : Nat) (h : Reachable st) :
      Reachable (assembleBlock st batchSize timestamp).2

/-- The hash a block appended after `c` must reference: the last block's
stored hash, or `ph` when `c` is empty. -/

def chainEndHash (ph : Str) : List Block → Str
  | [] => ph
  | b :: rest => chainEndHash b.blockHash rest

/-- From `src/server/routes/cases.ts` (`router.post('/create')`): the case
number pattern `^[0-9]{4}-[A-Z]-[0-9]{6}$`. -/

def matchCaseNumber (s : Str) : Bool :=
  match s with
  | [a, b, c, d, e, f, g, h1, h2, h3, h4, h5, h6] =>
    a.isDigit && b.isDigit && c.isDigit && d.isDigit && e == '-' && f.isUpper &&
      g == '-' && h1.isDigit && h2.isDigit && h3.isDigit && h4.isDigit &&
      h5.isDigit && h6.isDigit
  | _ => false

/-- From `src/server/routes/cases.ts` (`router.post('/create')`): the
jurisdiction pattern `^[A-Z]+-[A-Z]+$` — a nonempty run of uppercase letters,
a dash, and a nonempty all-uppercase remainder. -/

def matchJurisdiction (s : Str) : Bool :=
  let u := s.takeWhile Char.isUpper
  match s.drop u.length with
  | '-' :: v => !u.isEmpty && !v.isEmpty && v.all Char.isUpper
  | _ => false

/-- From `src/server/middleware/auth.ts` `validateRegistrationNumber`
(`^REG[0-9]{8}$`). -/

def validateRegistrationNumber (s : Str) : Bool :=
  match s with
  | 'R' :: 'E' :: 'G' :: ds => ds.length == 8 && ds.all Char.isDigit
  | _ => false

/-- From `src/server/routes/evidence.ts` (`router.post('/submit')`):
`artifactId = "ART-" + hash.substring(0, 12)`; the content hash itself is
produced by `EvidenceService.submitEvidence`, which is absent from the tree
and modelled from the spec as the digest of the submitted content. -/

def evidenceContentHash (content : Str) : Str := hash content

def mintArtifactId (content : Str) : Str :=
  ("ART-").data ++ (evidenceContentHash content).take 12

/-- Modelled from the spec: §3 ArtifactBindingIdentifier {artifactId,
caseBinding, userBinding, createdAt, immutableHash}. -/

structure ArtifactBindingIdentifier where
  artifactId : Str
  caseBinding : Str
  userBinding : Str
  createdAt : Str
  immutableHash : Str
deriving DecidableEq, Repr

/-- Modelled from the spec: §7 error taxonomy — the caller-recoverable
validation failure. -/

inductive MintError where
  | validationError
deriving DecidableEq, Repr

/-- The serialized components over which `immutableHash` is computed
(spec §3: hash(artifactId‖caseBinding‖userBinding‖createdAt)). -/

def bindingInput (artifactId caseBinding userBinding createdAt : Str) : Str :=
  artifactId ++ caseBinding ++ userBinding ++ createdAt

/-- Modelled from the spec: §4.2 `mint(artifactContent, caseNumber,
jurisdiction, userRegistration, barNumber?)`, validating the three input
patterns and failing with ValidationError on mismatch; §3 gives the component
formats and immutableHash. -/

def mint (content caseNumber jurisdiction userRegistration : Str)
    (barNumber : Option Str) (createdAt : Str) :
    Except MintError ArtifactBindingIdentifier :=
  if matchCaseNumber caseNumber && matchJurisdiction jurisdiction &&
      validateRegistrationNumber userRegistration then
    let artifactId := mintArtifactId content
    let caseBinding := ("CASE-").data ++ caseNumber ++ '-' :: jurisdiction
    let userBinding := ("USER-").data ++ userRegistration ++
      (match barNumber with
       | none => []
       | some bn => '-' :: bn)
    Except.ok
      { artifactId := artifactId
        caseBinding := caseBinding
        userBinding := userBinding
        createdAt := createdAt
        immutableHash := hash (bindingInput artifactId caseBinding userBinding createdAt) }
  else Except.error MintError.validationError

/-- Modelled from the spec: §4.2 `verify(identifier) -> bool` recomputes
immutableHash and compares. -/

def verify (id : ArtifactBindingIdentifier) : Bool :=
  id.immutableHash ==
    hash (bindingInput id.artifactId id.caseBinding id.userBinding id.createdAt)

/-- Modelled from the spec: §2/§6 flow — a successful mint records an
ArtifactBind transaction; a validation failure mutates no state. -/

def mintRecorded (st : ChainState) (content caseNumber jurisdiction userRegistration : Str)
    (barNumber : Option Str) (createdAt : Str) :
    Except MintError ArtifactBindingIdentifier × ChainState :=
  match mint content caseNumber jurisdiction userRegistration barNumber createdAt with
  | .error e => (.error e, st)
  | .ok id =>
    (.ok id,
      (submitTx st
        { typ := ("ArtifactBind").data
          payload := id.immutableHash
          submitter := userRegistration
          createdAt := createdAt
          complianceChecks := [true] }).2)

/-- ECMAScript `ToInt32`: wrap an integer to two's-complement 32 bits. -/

def toInt32 (n : Int) : Int :=
  let m := n.emod (2 ^ 32)
  if m < 2 ^ 31 then m else m - 2 ^ 32

/-- From `src/server/routes/chittyid.ts` (`ChittyIDServer.generateChecksum`):
one step of the rolling hash `hash = ((hash << 5) - hash) + charCode;
hash = hash & hash` with JavaScript 32-bit semantics. -/

def checksumStep (h : Int) (c : Char) : Int :=
  toInt32 (toInt32 (h * 32) - h + c.toNat)

def checksumHash (input : Str) : Int := input.foldl checksumStep 0

/-- The base-36 digit characters `0-9a-z` used by JavaScript
`Number.prototype.toString(36)`. -/

def base36digit (n : Nat) : Char :=
  if n < 10 then Char.ofNat (48 + n) else Char.ofNat (87 + n)

/-- JavaScript `n.toString(36)` for a natural number. -/

def toBase36 (n : Nat) : Str :=
  if _ : n < 36 then [base36digit n]
  else toBase36 (n / 36) ++ [base36digit (n % 36)]
termination_by n
decreasing_by
  exact Nat.div_lt_self (by omega) (by omega)

def toUpperStr (s : Str) : Str := s.map Char.toUpper

def toLowerStr (s : Str) : Str := s.map Char.toLower

/-- From `src/server/routes/chittyid.ts` (`ChittyIDServer.generateChecksum`):
`Math.abs(hash).toString(36).substr(0, 4).toUpperCase()`. -/

def generateChecksum (input : Str) : Str :=
  toUpperStr ((toBase36 (checksumHash input).natAbs).take 4)

/-- From `src/server/routes/chittyid.ts`: `ChittyIDServer.PREFIX`. -/

def CHTTY : Str := ("CHTTY").data

/-- From `src/server/routes/chittyid.ts`: `ChittyIDServer.VERTICALS`. -/

def VERTICALS : List Str :=
  [("user").data, ("evidence").data, ("case").data, ("property").data,
   ("contract").data, ("audit").data]

/-- JavaScript `Array.prototype.join('-')`. -/

def joinDash : List Str → Str
  | [] => []
  | [p] => p
  | p :: q :: rest => p ++ '-' :: joinDash (q :: rest)

/-- JavaScript `String.prototype.split('-')`. -/

def splitDash : Str → List Str
  | [] => [[]]
  | '-' :: rest => [] :: splitDash rest
  | c :: rest =>
    match splitDash rest with
    | [] => [[c]]
    | p :: ps => (c :: p) :: ps

/-- From `src/server/routes/chittyid.ts` (`ChittyIDServer.generateChittyID`),
with the nondeterministic inputs made explicit: `now` models `Date.now()` and
`sequence` models the four base-36 characters drawn from `Math.random()`;
`none` models the thrown `Invalid vertical` error. -/

def generateChittyID (vertical nodeId : Str) (now : Nat) (sequence : Str) :
    Option Str :=
  if vertical ∈ VERTICALS then
    let timestamp := toUpperStr (toBase36 now)
    let components := joinDash [CHTTY, timestamp, toUpperStr vertical, nodeId, sequence]
    let checksum := generateChecksum components
    some (components ++ '-' :: checksum)
  else none

/-- From `src/server/routes/chittyid.ts` (`ChittyIDServer.validateChittyID`):
split on `-` into exactly six parts, check the prefix and the vertical, and
compare the stored checksum with the one recomputed over the first five
joined parts. -/

def validateChittyID (chittyId : Str) : Bool :=
  match splitDash chittyId with
  | [pre, timestamp, vertical, nodeId, sequence, checksum] =>
    if pre ≠ CHTTY then false
    else if toLowerStr vertical ∉ VERTICALS then false
    else checksum == generateChecksum (joinDash [pre, timestamp, vertical, nodeId, sequence])
  | _ => false

/-- A fully passing evidence transaction used to exercise the model. -/
def txA : Transaction :=
  { typ := ("EvidenceSubmit").data
    payload := ("doc-1").data
    submitter := ("REG12345678").data
    createdAt := ("t1").data
    complianceChecks := [true] }

/-- A second distinct passing transaction. -/
def txB : Transaction :=
  { txA with payload := ("doc-2").data }

/-- A third distinct passing transaction. -/
def txC : Transaction :=
  { txA with payload := ("doc-3").data }

/-- A transaction whose batch scores exactly 95 (19 of 20 checks pass). -/
def tx95 : Transaction :=
  { txA with complianceChecks := List.replicate 19 true ++ [false] }

/-- A transaction whose batch scores exactly 94.999
(94999 of 100000 checks pass). -/
def tx94 : Transaction :=
  { txA with complianceChecks :=
      List.replicate 94999 true ++ List.replicate 5001 false }

/-- A three-commit run of the exposed operations, used as a concrete reachable
ledger. -/
def demoState1 : ChainState := (submitTx initialState txA).2

def demoState2 : ChainState := (assembleBlock demoState1 10 1).2

def demoState3 : ChainState := (submitTx demoState2 txB).2

def demoState4 : ChainState := (assembleBlock demoState3 10 2).2

def demoState5 : ChainState := (submitTx demoState4 txC).2

def demoState6 : ChainState := (assembleBlock demoState5 10 3).2

/-- The three blocks the demo run commits. -/
def blk1 : Block := mkBlock genesisBlock [txA] 1 1

def blk2 : Block := mkBlock blk1 [txB] 2 2

def blk3 : Block := mkBlock blk2 [txC] 3 3

/-- A pool holding the batch that scores exactly 95. -/
def st95 : ChainState := { initialState with pool := [tx95] }

/-- A pool holding the batch that scores exactly 94.999. -/
def st94 : ChainState := { initialState with pool := [tx94] }

theorem hex6_length (n : Nat) : (hex6 n).length = 6 := rfl

theorem digitChar_injOn : ∀ a, a < 16 → ∀ b, b < 16 →
    Nat.digitChar a = Nat.digitChar b → a = b := by decide

theorem digitChar_isHex : ∀ a, a < 16 →
    (Nat.digitChar a).isDigit = true ∨ ('a' ≤ Nat.digitChar a ∧ Nat.digitChar a ≤ 'f') := by
  decide

theorem hex6_inj {a b : Nat} (ha : a < 16 ^ 6) (hb : b < 16 ^ 6)
    (h : hex6 a = hex6 b) : a = b := by
  simp only [hex6, List.cons.injEq, and_true] at h
  obtain ⟨h5, h4, h3, h2, h1, h0⟩ := h
  have e5 := digitChar_injOn _ (Nat.mod_lt _ (by norm_num)) _ (Nat.mod_lt _ (by norm_num)) h5
  have e4 := digitChar_injOn _ (Nat.mod_lt _ (by norm_num)) _ (Nat.mod_lt _ (by norm_num)) h4
  have e3 := digitChar_injOn _ (Nat.mod_lt _ (by norm_num)) _ (Nat.mod_lt _ (by norm_num)) h3
  have e2 := digitChar_injOn _ (Nat.mod_lt _ (by norm_num)) _ (Nat.mod_lt _ (by norm_num)) h2
  have e1 := digitChar_injOn _ (Nat.mod_lt _ (by norm_num)) _ (Nat.mod_lt _ (by norm_num)) h1
  have e0 := digitChar_injOn _ (Nat.mod_lt _ (by norm_num)) _ (Nat.mod_lt _ (by norm_num)) h0
  omega

theorem char_toNat_lt (c : Char) : c.toNat < 16 ^ 6 := by
  have h := c.valid
  rcases h with h | ⟨_, h⟩
  · exact lt_trans h (by norm_num)
  · exact lt_trans h (by norm_num)

theorem hash_inj : ∀ {s t : Str}, hash s = hash t → s = t := by
  intro s
  induction s with
  | nil =>
    intro t h
    cases t with
    | nil => rfl
    | cons d t' =>
      exfalso
      have := congrArg List.length h
      simp [hash, hex6_length] at this
      omega
  | cons c s' ih =>
    intro t h
    cases t with
    | nil =>
      exfalso
      have := congrArg List.length h
      simp [hash, hex6_length] at this
    | cons d t' =>
      simp only [hash, List.flatMap_cons] at h
      have hlen : (hex6 c.toNat).length = (hex6 d.toNat).length := by
        simp [hex6_length]
      obtain ⟨hpre, hsuf⟩ := List.append_inj h hlen
      have hcd : c.toNat = d.toNat :=
        hex6_inj (char_toNat_lt c) (char_toNat_lt d) hpre
      have : c = d := by
        rw [← Char.ofNat_toNat c, ← Char.ofNat_toNat d, hcd]
      subst this
      exact congrArg (c :: ·) (ih hsuf)

theorem pairUp_length : ∀ l : List Str, (pairUp l).length = (l.length + 1) / 2
  | [] => rfl
  | [x] => by simp [pairUp]
  | _ :: _ :: rest => by
    simp only [pairUp, List.length_cons, pairUp_length rest]
    omega

theorem pairUp_getD_even : ∀ (l : List Str) (k : Nat), 2 * k < l.length →
    (pairUp l).getD k [] =
      if 2 * k + 1 < l.length then combine (l.getD (2 * k) []) (l.getD (2 * k + 1) [])
      else combine (l.getD (2 * k) []) (l.getD (2 * k) [])
  | [], k, h => absurd h (by simp)
  | [x], k, h => by
    have hk : k = 0 := by
      simp only [List.length_cons, List.length_nil] at h
      omega
    subst hk
    simp [pairUp]
  | x :: y :: rest, 0, h => by simp [pairUp]
  | x :: y :: rest, (k + 1), h => by
    have h2 : 2 * k < rest.length := by
      simp only [List.length_cons] at h
      omega
    have ih := pairUp_getD_even rest k h2
    have e1 : 2 * (k + 1) = (2 * k + 1) + 1 := by ring
    have e2 : 2 * (k + 1) + 1 = ((2 * k + 1) + 1) + 1 := by ring
    simp only [pairUp, e1, e2, List.getD_cons_succ, List.length_cons]
    rw [ih]
    by_cases h3 : 2 * k + 1 < rest.length
    · have h4 : 2 * k + 1 + 1 + 1 < rest.length + 1 + 1 := by omega
      simp [h3, h4]
    · have h4 : ¬(2 * k + 1 + 1 + 1 < rest.length + 1 + 1) := by omega
      simp [h3, h4]

theorem pairUp_getD_odd : ∀ (l : List Str) (k : Nat), 2 * k + 1 < l.length →
    (pairUp l).getD k [] = combine (l.getD (2 * k) []) (l.getD (2 * k + 1) [])
  | [], k, h => absurd h (by simp)
  | [x], k, h => by
    simp only [List.length_cons, List.length_nil] at h
    omega
  | x :: y :: rest, 0, h => by simp [pairUp]
  | x :: y :: rest, (k + 1), h => by
    have h2 : 2 * k + 1 < rest.length := by
      simp only [List.length_cons] at h
      omega
    have ih := pairUp_getD_odd rest k h2
    have e1 : 2 * (k + 1) = (2 * k + 1) + 1 := by ring
    have e2 : 2 * (k + 1) + 1 = ((2 * k + 1) + 1) + 1 := by ring
    simp only [pairUp, e1, e2, List.getD_cons_succ]
    exact ih

theorem merkle_roundtrip (l : List Str) (i : Nat) (h : i < l.length) :
    verifyProof (l.getD i []) (merkleProofAux l i) (merkleRoot l) = true := by
  by_cases hlen : l.length ≤ 1
  · match l, h, hlen with
    | [], h, _ => exact absurd h (by simp)
    | [x], h, _ =>
      have : i = 0 := by
        simp only [List.length_cons, List.length_nil] at h
        omega
      subst this
      rw [merkleProofAux]
      simp [verifyProof, merkleRoot]
    | _ :: _ :: _, _, hlen => exact absurd hlen (by simp)
  · match l, h, hlen with
    | [], h, _ => exact absurd h (by simp)
    | [x], _, hlen => exact absurd (by simp) hlen
    | x :: y :: rest, h, hlen =>
      rw [merkleProofAux, dif_neg hlen]
      have hroot : merkleRoot (x :: y :: rest) = merkleRoot (pairUp (x :: y :: rest)) := by
        rw [merkleRoot]
      have hi2 : i / 2 < (pairUp (x :: y :: rest)).length := by
        rw [pairUp_length]
        simp only [List.length_cons] at h ⊢
        omega
      have ih := merkle_roundtrip (pairUp (x :: y :: rest)) (i / 2) hi2
      rw [hroot]
      unfold verifyProof at ih ⊢
      rw [List.foldl_cons]
      obtain ⟨k, hk | hk⟩ := Nat.even_or_odd' i
      · subst hk
        have hm : 2 * k % 2 = 0 := by omega
        have hdiv : 2 * k / 2 = k := by omega
        rw [hdiv] at ih
        simp only [hm, reduceIte]
        by_cases hlast : 2 * k + 1 < (x :: y :: rest).length
        · have := pairUp_getD_even (x :: y :: rest) k h
          rw [if_pos hlast] at this
          simp only [if_pos hlast, hdiv, verifyStep, ← this]
          exact ih
        · have := pairUp_getD_even (x :: y :: rest) k h
          rw [if_neg hlast] at this
          simp only [if_neg hlast, hdiv, verifyStep, ← this]
          exact ih
      · subst hk
        have hm : ¬((2 * k + 1) % 2 = 0) := by omega
        have hdiv : (2 * k + 1) / 2 = k := by omega
        have hsub : 2 * k + 1 - 1 = 2 * k := by omega
        rw [hdiv] at ih
        have := pairUp_getD_odd (x :: y :: rest) k h
        simp only [if_neg hm, hdiv, hsub, verifyStep, ← this]
        exact ih
termination_by l.length
decreasing_by
  simp only [pairUp_length, List.length_cons]
  omega

theorem chainEndHash_lastBlock : ∀ (c : List Block) (ph : Str), c ≠ [] →
    chainEndHash ph c = (lastBlock c).blockHash
  | [], _, h => absurd rfl h
  | [_], _, _ => rfl
  | a :: b :: rest, ph, _ => by
    show chainEndHash a.blockHash (b :: rest) = (lastBlock (a :: b :: rest)).blockHash
    rw [chainEndHash_lastBlock (b :: rest) a.blockHash (by simp)]
    rfl

theorem mkBlock_blockHash (p : Block) (batch : List Transaction) (n t : Nat) :
    (mkBlock p batch n t).blockHash = computeBlockHash (mkBlock p batch n t) := rfl

theorem mkBlock_previousHash (p : Block) (batch : List Transaction) (n t : Nat) :
    (mkBlock p batch n t).previousHash = p.blockHash := rfl

theorem mkBlock_height (p : Block) (batch : List Transaction) (n t : Nat) :
    (mkBlock p batch n t).height = p.height + 1 := rfl

theorem validateFrom_append (c : List Block) (ph : Str) (h : Nat) (b : Block)
    (hc : validateFrom ph h c = none) :
    validateFrom ph h (c ++ [b]) =
      if blockLinkOk (chainEndHash ph c) (h + c.length) b then none
      else some (h + c.length) := by
  induction c generalizing ph h with
  | nil =>
    simp only [List.nil_append, chainEndHash, List.length_nil, Nat.add_zero,
      validateFrom]
  | cons a rest ih =>
    simp only [validateFrom] at hc
    by_cases ha : blockLinkOk ph h a
    · rw [if_pos ha] at hc
      rw [List.cons_append]
      simp only [validateFrom]
      rw [if_pos ha, ih a.blockHash (h + 1) hc]
      simp only [chainEndHash, List.length_cons]
      have harith : h + 1 + rest.length = h + (rest.length + 1) := by omega
      rw [harith]
    · rw [if_neg ha] at hc
      exact absurd hc (by simp)

theorem validateFrom_none_getD :
    ∀ (c : List Block) (ph : Str) (h0 : Nat), validateFrom ph h0 c = none →
      ∀ i, i < c.length →
        (c.getD i genesisBlock).blockHash = computeBlockHash (c.getD i genesisBlock) ∧
        (c.getD i genesisBlock).height = h0 + i ∧
        (c.getD i genesisBlock).previousHash =
          (if i = 0 then ph else (c.getD (i - 1) genesisBlock).blockHash)
  | [], _, _, _, _, hi => absurd hi (by simp)
  | b :: rest, ph, h0, hv, i, hi => by
    simp only [validateFrom] at hv
    by_cases hb : blockLinkOk ph h0 b
    case neg =>
      rw [if_neg hb] at hv
      exact absurd hv (by simp)
    case pos =>
    rw [if_pos hb] at hv
    have hb' := hb
    simp only [blockLinkOk, Bool.and_eq_true, beq_iff_eq] at hb'
    obtain ⟨⟨hprev, hheight⟩, hhash⟩ := hb'
    match i with
    | 0 => simpa using ⟨hhash, hheight, hprev⟩
    | (j + 1) =>
      have hj : j < rest.length := by
        simp only [List.length_cons] at hi
        omega
      obtain ⟨ih1, ih2, ih3⟩ := validateFrom_none_getD rest b.blockHash (h0 + 1) hv j hj
      refine ⟨by simpa using ih1, ?_, ?_⟩
      · simp only [List.getD_cons_succ]
        rw [ih2]
        omega
      · simp only [List.getD_cons_succ, if_neg (Nat.succ_ne_zero j),
          Nat.add_sub_cancel]
        rw [ih3]
        match j with
        | 0 => simp
        | (k + 1) => simp [List.getD_cons_succ]

theorem lastBlock_height : ∀ (c : List Block) (ph : Str) (h0 : Nat), c ≠ [] →
    validateFrom ph h0 c = none → (lastBlock c).height = h0 + c.length - 1
  | [], _, _, hne, _ => absurd rfl hne
  | [b], ph, h0, _, hv => by
    show b.height = h0 + 1 - 1
    simp only [validateFrom] at hv
    split at hv
    · rename_i hok
      simp only [blockLinkOk, Bool.and_eq_true, beq_iff_eq] at hok
      omega
    · exact absurd hv (by simp)
  | a :: b :: rest, ph, h0, _, hv => by
    simp only [validateFrom] at hv
    split at hv
    · have := lastBlock_height (b :: rest) a.blockHash (h0 + 1) (by simp) hv
      show (lastBlock (b :: rest)).height = h0 + (rest.length + 1 + 1) - 1
      rw [this]
      simp only [List.length_cons]
      omega
    · exact absurd hv (by simp)

theorem assembleBlock_cases (st : ChainState) (bs ts : Nat) :
    (st.pool.take bs = [] ∧ assembleBlock st bs ts = (.idle, st)) ∨
    (st.pool.take bs ≠ [] ∧ AUDIT_THRESHOLD ≤ auditScore (st.pool.take bs) ∧
      assembleBlock st bs ts =
        (.committed (mkBlock st.head (st.pool.take bs) st.nextNonce ts),
          { chain := st.chain ++ [mkBlock st.head (st.pool.take bs) st.nextNonce ts]
            pool := st.pool.drop bs
            nextNonce := st.nextNonce + 1 })) ∨
    (st.pool.take bs ≠ [] ∧ auditScore (st.pool.take bs) < AUDIT_THRESHOLD ∧
      assembleBlock st bs ts =
        (.consensusRejected, { st with pool := st.pool.take bs ++ st.pool.drop bs })) := by
  by_cases h1 : (st.pool.take bs).isEmpty
  · left
    refine ⟨List.isEmpty_iff.mp h1, ?_⟩
    unfold assembleBlock
    simp [h1]
  · by_cases h2 : AUDIT_THRESHOLD ≤ auditScore (st.pool.take bs)
    · right; left
      refine ⟨fun hc => h1 (by simp [hc]), h2, ?_⟩
      unfold assembleBlock
      simp [h1, h2]
    · right; right
      refine ⟨fun hc => h1 (by simp [hc]), lt_of_not_le h2, ?_⟩
      unfold assembleBlock
      simp [h1, h2]

theorem reachable_wf {st : ChainState} (h : Reachable st) :
    validateFrom GENESIS_PREVIOUS_HASH 0 st.chain = none ∧ st.chain ≠ [] := by
  induction h with
  | init =>
    constructor
    · show validateFrom GENESIS_PREVIOUS_HASH 0 [genesisBlock] = none
      have hok : blockLinkOk GENESIS_PREVIOUS_HASH 0 genesisBlock = true := by
        simp only [blockLinkOk, Bool.and_eq_true, beq_iff_eq]
        exact ⟨⟨rfl, rfl⟩, rfl⟩
      simp only [validateFrom, hok, if_true]
    · simp [initialState]
  | submit tx h ih =>
    rename_i st'
    have hc : (submitTx st' tx).2.chain = st'.chain := by
      unfold submitTx
      split_ifs <;> rfl
    rw [hc]
    exact ih
  | assemble bs ts h ih =>
    rename_i st'
    obtain ⟨ihv, ihne⟩ := ih
    rcases assembleBlock_cases st' bs ts with ⟨_, heq⟩ | ⟨hne, _, heq⟩ | ⟨_, _, heq⟩
    · rw [heq]
      exact ⟨ihv, ihne⟩
    · rw [heq]
      refine ⟨?_, by simp⟩
      rw [validateFrom_append _ _ _ _ ihv, if_pos]
      have hlen : 1 ≤ st'.chain.length := by
        cases hc : st'.chain with
        | nil => exact absurd hc ihne
        | cons a l => simp [hc]
      simp only [blockLinkOk, Bool.and_eq_true, beq_iff_eq, mkBlock_previousHash,
        mkBlock_height, mkBlock_blockHash]
      refine ⟨⟨?_, ?_⟩, trivial⟩
      · show st'.head.blockHash = chainEndHash GENESIS_PREVIOUS_HASH st'.chain
        rw [chainEndHash_lastBlock st'.chain GENESIS_PREVIOUS_HASH ihne]
        rfl
      · show st'.head.height + 1 = 0 + st'.chain.length
        have := lastBlock_height st'.chain GENESIS_PREVIOUS_HASH 0 ihne ihv
        show (lastBlock st'.chain).height + 1 = 0 + st'.chain.length
        omega
    · rw [heq]
      exact ⟨ihv, ihne⟩

theorem mem_hex6_isHex {n : Nat} {c : Char} (h : c ∈ hex6 n) :
    c.isDigit = true ∨ ('a' ≤ c ∧ c ≤ 'f') := by
  simp only [hex6, List.mem_cons, List.not_mem_nil, or_false] at h
  rcases h with rfl | rfl | rfl | rfl | rfl | rfl <;>
    exact digitChar_isHex _ (Nat.mod_lt _ (by norm_num))

theorem hash_chars_isHex {s : Str} {c : Char} (h : c ∈ hash s) :
    c.isDigit = true ∨ ('a' ≤ c ∧ c ≤ 'f') := by
  simp only [hash, List.mem_flatMap] at h
  obtain ⟨a, _, hc⟩ := h
  exact mem_hex6_isHex hc

theorem splitDash_ne_nil : ∀ s : Str, splitDash s ≠ []
  | [] => by simp [splitDash]
  | '-' :: rest => by simp [splitDash]
  | c :: rest => by
    rw [splitDash.eq_def]
    split
    · simp
    · simp
    · split <;> simp

theorem splitDash_cons_ne {c : Char} (rest : Str) (hc : c ≠ '-') :
    splitDash (c :: rest) =
      match splitDash rest with
      | [] => [[c]]
      | p :: ps => (c :: p) :: ps := by
  rw [splitDash.eq_def]
  split
  · rename_i heq
    exact absurd heq (by simp)
  · rename_i heq
    injection heq with h1 _
    exact absurd h1 hc
  · rename_i heq
    injection heq with h1 h2
    subst h1
    subst h2
    rfl

theorem splitDash_noDash {p : Str} (hp : '-' ∉ p) : splitDash p = [p] := by
  induction p with
  | nil => rfl
  | cons c rest ih =>
    have hc : c ≠ '-' := fun h => hp (h ▸ List.mem_cons_self c rest)
    have hrest : '-' ∉ rest := fun h => hp (List.mem_cons_of_mem c h)
    rw [splitDash_cons_ne rest hc, ih hrest]

theorem splitDash_append_dash {p : Str} (t : Str) (hp : '-' ∉ p) :
    splitDash (p ++ '-' :: t) = p :: splitDash t := by
  induction p with
  | nil => rfl
  | cons c rest ih =>
    have hc : c ≠ '-' := fun h => hp (h ▸ List.mem_cons_self c rest)
    have hrest : '-' ∉ rest := fun h => hp (List.mem_cons_of_mem c h)
    rw [List.cons_append, splitDash_cons_ne _ hc, ih hrest]

theorem joinDash_snoc : ∀ (ps : List Str) (q : Str), ps ≠ [] →
    joinDash (ps ++ [q]) = joinDash ps ++ '-' :: q
  | [], _, hne => absurd rfl hne
  | [p], q, _ => rfl
  | p :: p2 :: rest, q, _ => by
    have ih := joinDash_snoc (p2 :: rest) q (by simp)
    show joinDash (p :: ((p2 :: rest) ++ [q])) = (p ++ '-' :: joinDash (p2 :: rest)) ++ '-' :: q
    have hcons : (p2 :: rest) ++ [q] = p2 :: (rest ++ [q]) := rfl
    rw [hcons]
    show p ++ '-' :: joinDash (p2 :: (rest ++ [q])) = (p ++ '-' :: joinDash (p2 :: rest)) ++ '-' :: q
    rw [← hcons, ih]
    simp

theorem splitDash_joinDash : ∀ ps : List Str, ps ≠ [] →
    (∀ p ∈ ps, '-' ∉ p) → splitDash (joinDash ps) = ps
  | [], hne, _ => absurd rfl hne
  | [p], _, hall => by
    show splitDash p = [p]
    exact splitDash_noDash (hall p (by simp))
  | p :: q :: rest, _, hall => by
    show splitDash (p ++ '-' :: joinDash (q :: rest)) = p :: q :: rest
    rw [splitDash_append_dash _ (hall p (by simp))]
    rw [splitDash_joinDash (q :: rest) (by simp) (fun x hx => hall x (List.mem_cons_of_mem p hx))]

theorem base36digit_bounded_ne_dash : ∀ n, n < 36 → base36digit n ≠ '-' := by decide

theorem base36digit_bounded_toUpper_ne_dash :
    ∀ n, n < 36 → Char.toUpper (base36digit n) ≠ '-' := by decide

theorem toBase36_chars : ∀ (n : Nat) {c : Char}, c ∈ toBase36 n →
    ∃ m, m < 36 ∧ c = base36digit m := by
  intro n
  induction n using Nat.strong_induction_on with
  | _ n ih =>
    intro c hc
    rw [toBase36] at hc
    split at hc
    · rename_i h36
      simp only [List.mem_singleton] at hc
      exact ⟨n, h36, hc⟩
    · rename_i h36
      rcases List.mem_append.mp hc with h1 | h2
      · exact ih (n / 36) (Nat.div_lt_self (by omega) (by omega)) h1
      · simp only [List.mem_singleton] at h2
        exact ⟨n % 36, Nat.mod_lt _ (by omega), h2⟩

theorem toUpperStr_toBase36_noDash (n : Nat) : '-' ∉ toUpperStr (toBase36 n) := by
  intro h
  simp only [toUpperStr, List.mem_map] at h
  obtain ⟨c, hc, hup⟩ := h
  obtain ⟨m, hm, rfl⟩ := toBase36_chars n hc
  exact base36digit_bounded_toUpper_ne_dash m hm hup

theorem generateChecksum_noDash (input : Str) : '-' ∉ generateChecksum input := by
  intro h
  simp only [generateChecksum, toUpperStr, List.mem_map] at h
  obtain ⟨c, hc, hup⟩ := h
  obtain ⟨m, hm, rfl⟩ := toBase36_chars _ (List.mem_of_mem_take hc)
  exact base36digit_bounded_toUpper_ne_dash m hm hup

theorem demoReach2 : Reachable demoState2 :=
  .assemble 10 1 (.submit txA .init)

theorem demoReach6 : Reachable demoState6 :=
  .assemble 10 3 (.submit txC (.assemble 10 2 (.submit txB (.assemble 10 1 (.submit txA .init)))))

theorem auditScore_single_all_pass (tx : Transaction)
    (h : tx.complianceChecks = [true]) : auditScore [tx] = 100 := by
  have hb : batchChecks [tx] = [true] := by
    unfold batchChecks
    simp [h]
  unfold auditScore
  rw [hb]
  have hc : ([true] : List Bool).count true = 1 := rfl
  have hl : ([true] : List Bool).length = 1 := rfl
  rw [hc, hl]
  norm_num

theorem demoState1_eq :
    demoState1 = { chain := [genesisBlock], pool := [txA], nextNonce := 1 } := by
  show (submitTx initialState txA).2 = _
  unfold submitTx
  rw [if_neg (by decide), if_neg (by decide), if_neg (by decide)]
  rfl

theorem demoState2_eq :
    demoState2 = { chain := [genesisBlock, blk1], pool := [], nextNonce := 2 } := by
  show (assembleBlock demoState1 10 1).2 = _
  rcases assembleBlock_cases demoState1 10 1 with ⟨hc, _⟩ | ⟨_, _, heq⟩ | ⟨_, hsc, _⟩
  · rw [demoState1_eq] at hc
    exact absurd hc (by decide)
  · rw [heq, demoState1_eq]
    rfl
  · rw [demoState1_eq] at hsc
    have h100 : auditScore (({ chain := [genesisBlock], pool := [txA], nextNonce := 1 } : ChainState).pool.take 10) = 100 := by
      have ht : (({ chain := [genesisBlock], pool := [txA], nextNonce := 1 } : ChainState).pool.take 10) = [txA] := rfl
      rw [ht]
      exact auditScore_single_all_pass txA rfl
    rw [h100] at hsc
    norm_num [AUDIT_THRESHOLD] at hsc

theorem demoState3_eq :
    demoState3 = { chain := [genesisBlock, blk1], pool := [txB], nextNonce := 2 } := by
  show (submitTx demoState2 txB).2 = _
  rw [demoState2_eq]
  unfold submitTx
  rw [if_neg (by decide), if_neg (by decide), if_neg (by decide)]
  rfl

theorem demoState4_eq :
    demoState4 = { chain := [genesisBlock, blk1, blk2], pool := [], nextNonce := 3 } := by
  show (assembleBlock demoState3 10 2).2 = _
  rcases assembleBlock_cases demoState3 10 2 with ⟨hc, _⟩ | ⟨_, _, heq⟩ | ⟨_, hsc, _⟩
  · rw [demoState3_eq] at hc
    exact absurd hc (by decide)
  · rw [heq, demoState3_eq]
    rfl
  · rw [demoState3_eq] at hsc
    have h100 : auditScore (({ chain := [genesisBlock, blk1], pool := [txB], nextNonce := 2 } : ChainState).pool.take 10) = 100 := by
      have ht : (({ chain := [genesisBlock, blk1], pool := [txB], nextNonce := 2 } : ChainState).pool.take 10) = [txB] := rfl
      rw [ht]
      exact auditScore_single_all_pass txB rfl
    rw [h100] at hsc
    norm_num [AUDIT_THRESHOLD] at hsc

theorem demoState5_eq :
    demoState5 = { chain := [genesisBlock, blk1, blk2], pool := [txC], nextNonce := 3 } := by
  show (submitTx demoState4 txC).2 = _
  rw [demoState4_eq]
  unfold submitTx
  rw [if_neg (by decide), if_neg (by decide), if_neg (by decide)]
  rfl

theorem demoState6_eq :
    demoState6 = { chain := [genesisBlock, blk1, blk2, blk3], pool := [], nextNonce := 4 } := by
  show (assembleBlock demoState5 10 3).2 = _
  rcases assembleBlock_cases demoState5 10 3 with ⟨hc, _⟩ | ⟨_, _, heq⟩ | ⟨_, hsc, _⟩
  · rw [demoState5_eq] at hc
    exact absurd hc (by decide)
  · rw [heq, demoState5_eq]
    rfl
  · rw [demoState5_eq] at hsc
    have h100 : auditScore (({ chain := [genesisBlock, blk1, blk2], pool := [txC], nextNonce := 3 } : ChainState).pool.take 10) = 100 := by
      have ht : (({ chain := [genesisBlock, blk1, blk2], pool := [txC], nextNonce := 3 } : ChainState).pool.take 10) = [txC] := rfl
      rw [ht]
      exact auditScore_single_all_pass txC rfl
    rw [h100] at hsc
    norm_num [AUDIT_THRESHOLD] at hsc

theorem getD_set_self : ∀ (s : Str) (k : Nat) (c : Char), k < s.length →
    (s.set k c).getD k ' ' = c
  | [], _, _, h => absurd h (by simp)
  | _ :: _, 0, _, _ => rfl
  | _ :: t, (k + 1), c, h => by
    simp only [List.set_cons_succ, List.getD_cons_succ]
    exact getD_set_self t k c (by simp only [List.length_cons] at h; omega)

theorem set_single_char_ne (s : Str) (k : Nat) (c : Char) (hk : k < s.length)
    (hc : c ≠ s.getD k ' ') : s.set k c ≠ s := by
  intro h
  have := congrArg (fun l => l.getD k ' ') h
  simp only at this
  rw [getD_set_self s k c hk] at this
  exact hc this

theorem bindingInput_inj {a b c d a' b' c' d' : Str}
    (ha : a'.length = a.length) (hb : b'.length = b.length)
    (hc : c'.length = c.length)
    (h : bindingInput a' b' c' d' = bindingInput a b c d) :
    a' = a ∧ b' = b ∧ c' = c ∧ d' = d := by
  unfold bindingInput at h
  simp only [List.append_assoc] at h
  obtain ⟨h1, h2⟩ := List.append_inj h ha
  obtain ⟨h3, h4⟩ := List.append_inj h2 hb
  obtain ⟨h5, h6⟩ := List.append_inj h4 hc
  exact ⟨h1, h3, h5, h6⟩

theorem verify_false_of_input_ne (id id' : ArtifactBindingIdentifier)
    (hv : verify id = true)
    (hh : id'.immutableHash = id.immutableHash)
    (hne : bindingInput id'.artifactId id'.caseBinding id'.userBinding id'.createdAt ≠
      bindingInput id.artifactId id.caseBinding id.userBinding id.createdAt) :
    verify id' = false := by
  unfold verify at hv ⊢
  rw [beq_iff_eq] at hv
  rw [beq_eq_false_iff_ne, hh, hv]
  intro hcontra
  exact hne (hash_inj hcontra.symm)

theorem computeBlockHash_ne_of_merkleRoot_ne (b : Block) (m : Str)
    (hm : m ≠ b.merkleRoot) :
    computeBlockHash { b with merkleRoot := m } ≠ computeBlockHash b := by
  intro h
  apply hm
  have h2 := hash_inj h
  simp only [List.append_assoc] at h2
  replace h2 := List.append_cancel_left h2
  replace h2 := List.append_cancel_left h2
  replace h2 := List.append_cancel_left h2
  replace h2 := List.append_cancel_left h2
  exact List.append_cancel_right h2

theorem validateFrom_set_bad : ∀ (c : List Block) (ph : Str) (h0 k : Nat) (b' : Block),
    validateFrom ph h0 c = none → k < c.length →
    blockLinkOk (if k = 0 then ph else (c.getD (k - 1) genesisBlock).blockHash)
      (h0 + k) b' = false →
    validateFrom ph h0 (c.set k b') = some (h0 + k)
  | [], _, _, k, _, _, hk, _ => absurd hk (by simp)
  | b :: rest, ph, h0, 0, b', _, _, hbad => by
    rw [if_pos rfl, Nat.add_zero] at hbad
    simp only [List.set_cons_zero, validateFrom, hbad, Bool.false_eq_true,
      if_false, Nat.add_zero]
  | b :: rest, ph, h0, (k + 1), b', hv, hk, hbad => by
    simp only [validateFrom] at hv
    by_cases hb : blockLinkOk ph h0 b
    case neg =>
      rw [if_neg hb] at hv
      exact absurd hv (by simp)
    case pos =>
    rw [if_pos hb] at hv
    have hk' : k < rest.length := by
      simp only [List.length_cons] at hk
      omega
    have hbad' : blockLinkOk
        (if k = 0 then b.blockHash else (rest.getD (k - 1) genesisBlock).blockHash)
        ((h0 + 1) + k) b' = false := by
      have harith : (h0 + 1) + k = h0 + (k + 1) := by omega
      rw [harith]
      cases k with
      | zero => simpa using hbad
      | succ j =>
        rw [if_neg (Nat.succ_ne_zero j)]
        rw [if_neg (Nat.succ_ne_zero (j + 1))] at hbad
        have hidx : j + 1 + 1 - 1 = j + 1 := rfl
        rw [hidx, List.getD_cons_succ] at hbad
        have hidx2 : j + 1 - 1 = j := rfl
        rw [hidx2]
        exact hbad
    have := validateFrom_set_bad rest b.blockHash (h0 + 1) k b' hv hk' hbad'
    simp only [List.set_cons_succ, validateFrom, hb, if_true, this]
    congr 1
    omega

theorem reachable_blocks_merkleRoot {st : ChainState} (h : Reachable st) :
    ∀ b ∈ st.chain, b.merkleRoot = merkleRoot (b.transactions.map Transaction.contentHash) := by
  induction h with
  | init =>
    intro b hb
    simp only [initialState, List.mem_singleton] at hb
    subst hb
    rfl
  | submit tx h ih =>
    rename_i st'
    have hc : (submitTx st' tx).2.chain = st'.chain := by
      unfold submitTx
      split_ifs <;> rfl
    rw [hc]
    exact ih
  | assemble bs ts h ih =>
    rename_i st'
    rcases assembleBlock_cases st' bs ts with ⟨_, heq⟩ | ⟨_, _, heq⟩ | ⟨_, _, heq⟩
    · rw [heq]; exact ih
    · rw [heq]
      intro b hb
      rcases List.mem_append.mp hb with hmem | hmem
      · exact ih b hmem
      · simp only [List.mem_singleton] at hmem
        subst hmem
        rfl
    · rw [heq]; exact ih

theorem submitTx_accepted_state {st : ChainState} {tx : Transaction}
    (h : (submitTx st tx).1 = .accepted) :
    tx.typ ∈ TX_TYPES ∧ hashKnown st tx.contentHash = false ∧
      st.pool.length < POOL_CAPACITY ∧
      (submitTx st tx).2 = { st with pool := st.pool ++ [tx] } := by
  unfold submitTx at h ⊢
  by_cases h1 : ¬(tx.typ ∈ TX_TYPES)
  · rw [if_pos h1] at h
    exact absurd h (by simp)
  · rw [if_neg h1] at h ⊢
    by_cases h2 : hashKnown st tx.contentHash
    · rw [if_pos h2] at h
      exact absurd h (by simp)
    · rw [if_neg h2] at h ⊢
      by_cases h3 : POOL_CAPACITY ≤ st.pool.length
      · rw [if_pos h3] at h
        exact absurd h (by simp)
      · rw [if_neg h3] at h ⊢
        exact ⟨not_not.mp h1, Bool.of_not_eq_true h2, by omega, rfl⟩

/-- C1: in every ledger state reachable by the exposed operations, every
committed block at height h > 0 stores a previousHash equal to the blockHash
of the block at height h-1 and a blockHash equal to the hash recomputed over
its stored fields, and the genesis block's previousHash is the well-known
zero constant. -/
theorem claim_C1_chain_link_invariant (st : ChainState) (hr : Reachable st) :
    (st.chain.getD 0 genesisBlock).previousHash = GENESIS_PREVIOUS_HASH ∧
    ∀ h, 0 < h → h < st.chain.length →
      (st.chain.getD h genesisBlock).previousHash =
        (st.chain.getD (h - 1) genesisBlock).blockHash ∧
      (st.chain.getD h genesisBlock).blockHash =
        computeBlockHash (st.chain.getD h genesisBlock) := by
  obtain ⟨hv, hne⟩ := reachable_wf hr
  constructor
  · have h0 : 0 < st.chain.length := List.length_pos.mpr hne
    obtain ⟨_, _, hprev⟩ :=
      validateFrom_none_getD st.chain GENESIS_PREVIOUS_HASH 0 hv 0 h0
    simpa using hprev
  · intro h hpos hlen
    obtain ⟨hhash, _, hprev⟩ :=
      validateFrom_none_getD st.chain GENESIS_PREVIOUS_HASH 0 hv h hlen
    rw [if_neg (by omega)] at hprev
    exact ⟨hprev, hhash⟩

/-- C2: with a nonempty drained batch, the assembler commits exactly when
auditScore ≥ 95; below the threshold no block is persisted and the drained
batch is re-queued at the front of the pool in original order, leaving the
pool equal to its pre-drain state. -/
theorem claim_C2_audit_threshold (st : ChainState) (bs ts : Nat)
    (hne : st.pool.take bs ≠ []) :
    (AUDIT_THRESHOLD ≤ auditScore (st.pool.take bs) →
      assembleBlock st bs ts =
        (.committed (mkBlock st.head (st.pool.take bs) st.nextNonce ts),
          { chain := st.chain ++ [mkBlock st.head (st.pool.take bs) st.nextNonce ts]
            pool := st.pool.drop bs
            nextNonce := st.nextNonce + 1 })) ∧
    (auditScore (st.pool.take bs) < AUDIT_THRESHOLD →
      assembleBlock st bs ts =
        (.consensusRejected, { st with pool := st.pool.take bs ++ st.pool.drop bs }) ∧
      (assembleBlock st bs ts).2 = st) := by
  rcases assembleBlock_cases st bs ts with ⟨hc, _⟩ | ⟨_, hsc, heq⟩ | ⟨_, hsc, heq⟩
  · exact absurd hc hne
  · constructor
    · intro _
      exact heq
    · intro hlt
      exact absurd hsc (not_le.mpr hlt)
  · constructor
    · intro hge
      exact absurd hge (not_le.mpr hsc)
    · intro _
      refine ⟨heq, ?_⟩
      rw [heq]
      show ({ st with pool := st.pool.take bs ++ st.pool.drop bs } : ChainState) = st
      rw [List.take_append_drop]

/-- C6: appending a candidate block whose previousHash differs from the
current head's blockHash or whose height is not head.height + 1 returns the
fork rejection and leaves the ledger state entirely unchanged. -/
theorem claim_C6_fork_rejected (st : ChainState) (b : Block)
    (h : b.previousHash ≠ st.head.blockHash ∨ b.height ≠ st.head.height + 1) :
    appendBlock st b = (.forkRejected, st) := by
  unfold appendBlock
  rw [if_neg]
  rintro ⟨h1, h2⟩
  rcases h with hbad | hbad
  · exact hbad h1
  · exact hbad h2

/-- C9: a transaction whose first submission is accepted yields `duplicate`
(never an error) when submitted again, and the state after both submissions
equals the state after the first. -/
theorem claim_C9_submit_idempotent (st : ChainState) (tx : Transaction)
    (h : (submitTx st tx).1 = .accepted) :
    (submitTx (submitTx st tx).2 tx).1 = .duplicate ∧
    (submitTx (submitTx st tx).2 tx).2 = (submitTx st tx).2 := by
  obtain ⟨hty, _, _, hst⟩ := submitTx_accepted_state h
  rw [hst]
  have hk : hashKnown { st with pool := st.pool ++ [tx] } tx.contentHash = true := by
    unfold hashKnown
    simp [List.any_append]
  constructor
  · unfold submitTx
    rw [if_neg (not_not_intro hty), if_pos hk]
  · unfold submitTx
    rw [if_neg (not_not_intro hty), if_pos hk]

/-- C3: every minted artifactId is the string "ART-" followed by the first 12
characters of the artifact's content hash, all of which are hexadecimal
digits; in particular, minting with the scenario inputs and content
b"contract-v1" yields an artifactId of that form over the content hash of
b"contract-v1". -/
theorem claim_C3_artifact_id :
    (∀ content : Str,
      mintArtifactId content = ("ART-").data ++ (evidenceContentHash content).take 12) ∧
    (∀ content : Str, (mintArtifactId content).take 4 = ("ART-").data) ∧
    (∀ (content : Str) (c : Char), c ∈ (mintArtifactId content).drop 4 →
      c.isDigit = true ∨ ('a' ≤ c ∧ c ≤ 'f')) ∧
    (∀ (ca : Str) (id : ArtifactBindingIdentifier),
      mint (("contract-v1").data) (("2024-D-007847").data) (("ILLINOIS-COOK").data)
          (("REG12345678").data) none ca = .ok id →
        id.artifactId =
          ("ART-").data ++ (evidenceContentHash (("contract-v1").data)).take 12) := by
  refine ⟨fun _ => rfl, fun _ => rfl, ?_, ?_⟩
  · intro content c hc
    have hdrop : (mintArtifactId content).drop 4 = (evidenceContentHash content).take 12 := rfl
    rw [hdrop] at hc
    exact hash_chars_isHex (List.mem_of_mem_take hc)
  · intro ca id hid
    unfold mint at hid
    rw [if_pos (by decide)] at hid
    injection hid with hid
    rw [← hid]
    rfl

/-- C4: `verify` of every successfully minted identifier is true, and for any
identifier that verifies, replacing any single character of any of the four
components (artifactId, caseBinding, userBinding, createdAt) by a different
character makes `verify` false, because `verify` recomputes immutableHash
over the components. -/
theorem claim_C4_verify_roundtrip :
    (∀ (content cn j ur : Str) (bn : Option Str) (ca : Str)
        (id : ArtifactBindingIdentifier),
      mint content cn j ur bn ca = .ok id → verify id = true) ∧
    (∀ (id : ArtifactBindingIdentifier), verify id = true →
      ∀ (k : Nat) (c : Char),
      (k < id.artifactId.length → c ≠ id.artifactId.getD k ' ' →
        verify { id with artifactId := id.artifactId.set k c } = false) ∧
      (k < id.caseBinding.length → c ≠ id.caseBinding.getD k ' ' →
        verify { id with caseBinding := id.caseBinding.set k c } = false) ∧
      (k < id.userBinding.length → c ≠ id.userBinding.getD k ' ' →
        verify { id with userBinding := id.userBinding.set k c } = false) ∧
      (k < id.createdAt.length → c ≠ id.createdAt.getD k ' ' →
        verify { id with createdAt := id.createdAt.set k c } = false)) := by
  constructor
  · intro content cn j ur bn ca id hid
    unfold mint at hid
    split at hid
    · injection hid with hid
      rw [← hid]
      unfold verify
      exact beq_self_eq_true _
    · exact absurd hid (by simp)
  · intro id hv k c
    refine ⟨?_, ?_, ?_, ?_⟩
    · intro hk hc
      refine verify_false_of_input_ne id _ hv rfl ?_
      intro hcontra
      obtain ⟨h1, _, _, _⟩ :=
        bindingInput_inj (List.length_set ..) rfl rfl hcontra
      exact set_single_char_ne _ k c hk hc h1
    · intro hk hc
      refine verify_false_of_input_ne id _ hv rfl ?_
      intro hcontra
      obtain ⟨_, h2, _, _⟩ :=
        bindingInput_inj rfl (List.length_set ..) rfl hcontra
      exact set_single_char_ne _ k c hk hc h2
    · intro hk hc
      refine verify_false_of_input_ne id _ hv rfl ?_
      intro hcontra
      obtain ⟨_, _, h3, _⟩ :=
        bindingInput_inj rfl rfl (List.length_set ..) hcontra
      exact set_single_char_ne _ k c hk hc h3
    · intro hk hc
      refine verify_false_of_input_ne id _ hv rfl ?_
      intro hcontra
      obtain ⟨_, _, _, h4⟩ :=
        bindingInput_inj rfl rfl rfl hcontra
      exact set_single_char_ne _ k c hk hc h4

/-- C5: for every committed block of a reachable ledger state and every
transaction index i in it, the merkle proof generated for that leaf verifies
against the block's merkleRoot. -/
theorem claim_C5_merkle_proof_roundtrip (st : ChainState) (hr : Reachable st)
    (b : Block) (hb : b ∈ st.chain) (i : Nat)
    (hi : i < b.transactions.length) :
    verifyProof ((b.transactions.map Transaction.contentHash).getD i [])
      (merkleProofAux (b.transactions.map Transaction.contentHash) i)
      b.merkleRoot = true := by
  rw [reachable_blocks_merkleRoot hr b hb]
  exact merkle_roundtrip (b.transactions.map Transaction.contentHash) i
    (by simpa using hi)

/-- C7: validateChain of a reachable ledger state reports valid with no
firstInvalidHeight, and on a chain of at least four blocks in which only
block 3's stored merkleRoot is replaced by a different value it reports
invalid with firstInvalidHeight = 3. -/
theorem claim_C7_validate_chain (st : ChainState) (hr : Reachable st) :
    validateChain st = (true, none) ∧
    (∀ m : Str, 4 ≤ st.chain.length →
      m ≠ (st.chain.getD 3 genesisBlock).merkleRoot →
      validateChain { st with chain := st.chain.set 3 { st.chain.getD 3 genesisBlock with merkleRoot := m } } =
        (false, some 3)) := by
  obtain ⟨hv, _⟩ := reachable_wf hr
  constructor
  · unfold validateChain
    rw [hv]
  · intro m hlen hm
    have h3 : 3 < st.chain.length := by omega
    obtain ⟨hhash, _, _⟩ :=
      validateFrom_none_getD st.chain GENESIS_PREVIOUS_HASH 0 hv 3 h3
    have hbad : blockLinkOk
        (if 3 = 0 then GENESIS_PREVIOUS_HASH
         else (st.chain.getD (3 - 1) genesisBlock).blockHash) (0 + 3)
        { st.chain.getD 3 genesisBlock with merkleRoot := m } = false := by
      unfold blockLinkOk
      have hfalse : (({ st.chain.getD 3 genesisBlock with merkleRoot := m } : Block).blockHash ==
          computeBlockHash { st.chain.getD 3 genesisBlock with merkleRoot := m }) = false := by
        rw [beq_eq_false_iff_ne]
        show (st.chain.getD 3 genesisBlock).blockHash ≠
          computeBlockHash { st.chain.getD 3 genesisBlock with merkleRoot := m }
        rw [hhash]
        exact
          (computeBlockHash_ne_of_merkleRoot_ne (st.chain.getD 3 genesisBlock) m hm).symm
      rw [hfalse, Bool.and_false]
    have hset := validateFrom_set_bad st.chain GENESIS_PREVIOUS_HASH 0 3
      { st.chain.getD 3 genesisBlock with merkleRoot := m } hv h3 hbad
    unfold validateChain
    simp only [hset]

/-- C8: an input failing any of the three format patterns (caseNumber,
jurisdiction, userRegistration) makes the minting/creation operation fail
with ValidationError while mutating no state, and an input matching all
three does not fail validation. -/
theorem claim_C8_validation_errors (st : ChainState)
    (content caseNumber jurisdiction userRegistration : Str)
    (bn : Option Str) (createdAt : Str) :
    ((matchCaseNumber caseNumber = false ∨ matchJurisdiction jurisdiction = false ∨
        validateRegistrationNumber userRegistration = false) →
      mintRecorded st content caseNumber jurisdiction userRegistration bn createdAt =
        (.error MintError.validationError, st)) ∧
    ((matchCaseNumber caseNumber = true ∧ matchJurisdiction jurisdiction = true ∧
        validateRegistrationNumber userRegistration = true) →
      ∃ id, (mintRecorded st content caseNumber jurisdiction userRegistration
        bn createdAt).1 = .ok id) := by
  constructor
  · intro h
    have hcond : (matchCaseNumber caseNumber && matchJurisdiction jurisdiction &&
        validateRegistrationNumber userRegistration) ≠ true := by
      rcases h with h | h | h <;> simp [h]
    unfold mintRecorded mint
    rw [if_neg hcond]
  · rintro ⟨h1, h2, h3⟩
    have hcond : (matchCaseNumber caseNumber && matchJurisdiction jurisdiction &&
        validateRegistrationNumber userRegistration) = true := by
      simp [h1, h2, h3]
    unfold mintRecorded mint
    rw [if_pos hcond]
    exact ⟨_, rfl⟩

/-- C10: for every vertical in the six known verticals and every nodeId
without a dash (and any timestamp and any dash-free random sequence, which
the generator only ever draws from base-36 characters), the generated
ChittyID validates: it splits into exactly six dash-separated parts starting
with CHTTY, and the stored sixth part equals the checksum recomputed over
the first five joined parts. -/
theorem claim_C10_chittyid_roundtrip (vertical nodeId : Str) (now : Nat)
    (sequence : Str) (hv : vertical ∈ VERTICALS) (hn : '-' ∉ nodeId)
    (hs : '-' ∉ sequence) :
    ∃ id, generateChittyID vertical nodeId now sequence = some id ∧
      validateChittyID id = true ∧
      (splitDash id).length = 6 ∧
      (splitDash id).getD 0 [] = CHTTY ∧
      (splitDash id).getD 5 [] = generateChecksum (joinDash ((splitDash id).take 5)) := by
  have hvu : '-' ∉ toUpperStr vertical := by
    have hv' := hv
    simp only [VERTICALS, List.mem_cons, List.not_mem_nil, or_false] at hv'
    rcases hv' with rfl | rfl | rfl | rfl | rfl | rfl <;> decide
  have hvl : toLowerStr (toUpperStr vertical) ∈ VERTICALS := by
    have hv' := hv
    simp only [VERTICALS, List.mem_cons, List.not_mem_nil, or_false] at hv'
    rcases hv' with rfl | rfl | rfl | rfl | rfl | rfl <;> decide
  set ts := toUpperStr (toBase36 now) with hts
  set uv := toUpperStr vertical with huv
  set cs := generateChecksum (joinDash [CHTTY, ts, uv, nodeId, sequence]) with hcs
  have hid : joinDash [CHTTY, ts, uv, nodeId, sequence] ++ '-' :: cs =
      joinDash [CHTTY, ts, uv, nodeId, sequence, cs] := by
    have h := joinDash_snoc [CHTTY, ts, uv, nodeId, sequence] cs (by simp)
    simpa using h.symm
  have hsplit : splitDash (joinDash [CHTTY, ts, uv, nodeId, sequence] ++ '-' :: cs) =
      [CHTTY, ts, uv, nodeId, sequence, cs] := by
    rw [hid]
    apply splitDash_joinDash
    · simp
    · intro p hp
      simp only [List.mem_cons, List.not_mem_nil, or_false] at hp
      rcases hp with rfl | rfl | rfl | rfl | rfl | rfl
      · decide
      · rw [hts]
        exact toUpperStr_toBase36_noDash now
      · rw [huv]
        exact hvu
      · exact hn
      · exact hs
      · rw [hcs]
        exact generateChecksum_noDash _
  refine ⟨joinDash [CHTTY, ts, uv, nodeId, sequence] ++ '-' :: cs, ?_, ?_, ?_, ?_, ?_⟩
  · unfold generateChittyID
    rw [if_pos hv]
  · unfold validateChittyID
    rw [hsplit]
    show (if CHTTY ≠ CHTTY then false
      else if toLowerStr uv ∉ VERTICALS then false
      else cs == generateChecksum (joinDash [CHTTY, ts, uv, nodeId, sequence])) = true
    rw [if_neg (by simp), if_neg (not_not_intro hvl), ← hcs]
    exact beq_self_eq_true cs
  · rw [hsplit]
    rfl
  · rw [hsplit]
    rfl
  · rw [hsplit]
    rfl

/-- C1 witness: the invariant evaluated on a concrete two-block ledger. -/
theorem claim_C1_witness :
    (demoState2.chain.getD 0 genesisBlock).previousHash = GENESIS_PREVIOUS_HASH ∧
    (demoState2.chain.getD 1 genesisBlock).previousHash =
      (demoState2.chain.getD 0 genesisBlock).blockHash := by
  have h := claim_C1_chain_link_invariant demoState2 demoReach2
  exact ⟨h.1, (h.2 1 (by decide) (by rw [demoState2_eq]; decide)).1⟩

/-- C5 witness: the merkle round-trip on the first transaction of the first
committed block of the concrete ledger. -/
theorem claim_C5_witness :
    verifyProof
      (((demoState2.chain.getD 1 genesisBlock).transactions.map Transaction.contentHash).getD 0 [])
      (merkleProofAux
        ((demoState2.chain.getD 1 genesisBlock).transactions.map Transaction.contentHash) 0)
      (demoState2.chain.getD 1 genesisBlock).merkleRoot = true := by
  apply claim_C5_merkle_proof_roundtrip demoState2 demoReach2 _ ?_ 0 ?_
  · rw [demoState2_eq]
    simp
  · rw [demoState2_eq]
    decide

/-- C6 witness: appending a block with a stale height to the initial ledger
is fork-rejected and leaves the state unchanged. -/
theorem claim_C6_witness :
    genesisBlock.height ≠ initialState.head.height + 1 ∧
    appendBlock initialState genesisBlock = (.forkRejected, initialState) :=
  ⟨by decide, claim_C6_fork_rejected initialState genesisBlock (Or.inr (by decide))⟩

/-- C9 witness: double submission of a concrete transaction on the initial
state. -/
theorem claim_C9_witness :
    (submitTx (submitTx initialState txA).2 txA).1 = SubmitResult.duplicate ∧
    (submitTx (submitTx initialState txA).2 txA).2 = (submitTx initialState txA).2 :=
  claim_C9_submit_idempotent initialState txA (by decide)

/-- C10 witness: a concrete generated ChittyID validates. -/
theorem claim_C10_witness :
    ∃ id, generateChittyID (("user").data) (("1").data) 1718880000000 (("7K2Q").data) = some id ∧
      validateChittyID id = true ∧
      (splitDash id).length = 6 ∧
      (splitDash id).getD 0 [] = CHTTY ∧
      (splitDash id).getD 5 [] = generateChecksum (joinDash ((splitDash id).take 5)) :=
  claim_C10_chittyid_roundtrip (("user").data) (("1").data) 1718880000000 (("7K2Q").data)
    (by decide) (by decide) (by decide)

/-- C2 witness: a batch scoring exactly 95 commits; one scoring exactly
94.999 is rejected with the pool restored. -/
theorem claim_C2_witness :
    (assembleBlock st95 1 7 =
      (.committed (mkBlock st95.head (st95.pool.take 1) st95.nextNonce 7),
        { chain := st95.chain ++ [mkBlock st95.head (st95.pool.take 1) st95.nextNonce 7]
          pool := st95.pool.drop 1
          nextNonce := st95.nextNonce + 1 })) ∧
    (assembleBlock st94 1 7 =
      (.consensusRejected, { st94 with pool := st94.pool.take 1 ++ st94.pool.drop 1 }) ∧
      (assembleBlock st94 1 7).2 = st94) := by
  constructor
  · refine (claim_C2_audit_threshold st95 1 7 (by decide)).1 ?_
    have ht : st95.pool.take 1 = [tx95] := rfl
    rw [ht]
    have hb : batchChecks [tx95] = List.replicate 19 true ++ [false] := by
      unfold batchChecks
      simp [tx95, txA]
    unfold auditScore
    rw [hb]
    have hc : (List.replicate 19 true ++ [false]).count true = 19 := rfl
    have hl : (List.replicate 19 true ++ [false]).length = 20 := rfl
    rw [hc, hl]
    show (95 : ℚ) ≤ 100 * (19 : ℕ) / (20 : ℕ)
    norm_num
  · refine (claim_C2_audit_threshold st94 1 7 (by decide)).2 ?_
    have ht : st94.pool.take 1 = [tx94] := rfl
    rw [ht]
    have hb : batchChecks [tx94] =
        List.replicate 94999 true ++ List.replicate 5001 false := by
      have h1 : batchChecks [tx94] = tx94.complianceChecks ++ [] := rfl
      rw [h1, List.append_nil]
      rfl
    unfold auditScore
    rw [hb]
    have hc : (List.replicate 94999 true ++ List.replicate 5001 false).count true = 94999 := by
      rw [List.count_append]
      rw [List.count_replicate, List.count_replicate]
      norm_num
    have hl : (List.replicate 94999 true ++ List.replicate 5001 false).length = 100000 := by
      rw [List.length_append, List.length_replicate, List.length_replicate]
    rw [hc, hl]
    show 100 * ((94999 : ℕ) : ℚ) / ((100000 : ℕ) : ℚ) < 95
    norm_num

/-- C3 witness: the hex-character clause at a concrete content and character,
and the scenario mint over b"contract-v1". -/
theorem claim_C3_witness :
    ('0'.isDigit = true ∨ ('a' ≤ '0' ∧ '0' ≤ 'f')) ∧
    (∃ id, mint (("contract-v1").data) (("2024-D-007847").data)
        (("ILLINOIS-COOK").data) (("REG12345678").data) none (("t0").data) = .ok id ∧
      id.artifactId = ("ART-").data ++ (evidenceContentHash (("contract-v1").data)).take 12) := by
  constructor
  · exact claim_C3_artifact_id.2.2.1 (("a").data) '0' (by decide)
  · obtain ⟨id, hid⟩ : ∃ id, mint (("contract-v1").data) (("2024-D-007847").data)
        (("ILLINOIS-COOK").data) (("REG12345678").data) none (("t0").data) = .ok id := by
      unfold mint
      rw [if_pos (by decide)]
      exact ⟨_, rfl⟩
    exact ⟨id, hid, claim_C3_artifact_id.2.2.2 (("t0").data) id hid⟩

/-- C4 witness: a concrete mint verifies, and a single-character mutation of
its artifactId fails verification. -/
theorem claim_C4_witness :
    ∃ id, mint (("contract-v1").data) (("2024-D-007847").data)
        (("ILLINOIS-COOK").data) (("REG12345678").data) none (("t0").data) = .ok id ∧
      verify id = true ∧
      verify { id with artifactId := id.artifactId.set 0 '-' } = false := by
  obtain ⟨id, hid⟩ : ∃ id, mint (("contract-v1").data) (("2024-D-007847").data)
      (("ILLINOIS-COOK").data) (("REG12345678").data) none (("t0").data) = .ok id := by
    unfold mint
    rw [if_pos (by decide)]
    exact ⟨_, rfl⟩
  have hart : id.artifactId = mintArtifactId (("contract-v1").data) := by
    have h2 := hid
    unfold mint at h2
    rw [if_pos (by decide)] at h2
    injection h2 with h2
    rw [← h2]
  have hvr := claim_C4_verify_roundtrip.1 _ _ _ _ _ _ id hid
  refine ⟨id, hid, hvr, ?_⟩
  refine (claim_C4_verify_roundtrip.2 id hvr 0 '-').1 ?_ ?_
  · rw [hart]
    decide
  · rw [hart]
    decide

/-- C7 witness: the concrete four-block ledger validates, and corrupting
block 3's merkleRoot makes validateChain report the first invalid height 3. -/
theorem claim_C7_witness :
    validateChain demoState6 = (true, none) ∧
    validateChain { demoState6 with chain := demoState6.chain.set 3 { demoState6.chain.getD 3 genesisBlock with merkleRoot := '!' :: (demoState6.chain.getD 3 genesisBlock).merkleRoot } } =
      (false, some 3) := by
  have h := claim_C7_validate_chain demoState6 demoReach6
  refine ⟨h.1, h.2 _ (by rw [demoState6_eq]; decide) ?_⟩
  intro heq
  have hl := congrArg List.length heq
  simp at hl

/-- C8 witness: a malformed caseNumber yields ValidationError with the state
untouched, and well-formed inputs pass validation. -/
theorem claim_C8_witness :
    mintRecorded initialState (("x").data) (("24-D-7").data) (("ILLINOIS-COOK").data)
      (("REG12345678").data) none (("t0").data) =
      (.error MintError.validationError, initialState) ∧
    (∃ id, (mintRecorded initialState (("x").data) (("2024-D-007847").data)
      (("ILLINOIS-COOK").data) (("REG12345678").data) none (("t0").data)).1 = .ok id) := by
  constructor
  · exact (claim_C8_validation_errors initialState (("x").data) (("24-D-7").data)
      (("ILLINOIS-COOK").data) (("REG12345678").data) none (("t0").data)).1
      (Or.inl (by decide))
  · exact (claim_C8_validation_errors initialState (("x").data) (("2024-D-007847").data)
      (("ILLINOIS-COOK").data) (("REG12345678").data) none (("t0").data)).2
      ⟨by decide, by decide, by decide⟩

end ChittyChain
